import Mathlib

/-!
Verification of the blockit ledger library (`src/include/blokit/structure/`).

The C++ sources are embedded shallowly:

* `Transaction<T>` (transaction.hpp) becomes `chain.Transaction`; the generic
  payload `T` (constrained to expose `to_string()`) is modelled by its
  canonical string form, stored in the field `function_`.
* `Block<T>` (block.hpp, the Merkle-enabled variant whose line numbers the
  claims cite) becomes `chain.Block`.
* `Authenticator` (auth.hpp) becomes `chain.Authenticator`; the unordered
  sets/maps are modelled as lists with set/assoc-list update semantics
  (insert is a no-op on a present key, `operator[]` inserts a default).
* `Chain<T>` (chain.hpp) becomes `chain.Chain`; `std::vector::back()` on an
  empty vector is undefined behaviour and is modelled by `Option` propagation
  (`none` marks the undefined access).
* The file merkle.hpp is included by block.hpp but absent from the repository
  sources, so the `MerkleTree` class is modelled from the spec (section 4.2),
  as is the opaque external hash/signing collaborator (lockey).

Wall-clock timestamps (`system_clock::now()`) are passed as explicit
`Timestamp` arguments to the constructors that read the clock.
-/

namespace chain

/-- Decimal rendering of a signed integer, as C++ `operator<<` on `int64_t`
and `int16_t` stream insertion. -/
def intStr (i : Int) : String := toString i

/-- Decimal rendering of an unsigned integer, as C++ `operator<<` on
`uint32_t` stream insertion. -/
def natStr (n : Nat) : String := toString n

/-- Modelled from the spec: the opaque Hasher collaborator (section 6,
"hash(bytes) gives a fixed-size digest"); the implementation delegates to
the external lockey SHA-256 library, which is not part of this repository.
Modelled symbolically as a collision-free digest (`hashStr` is injective and
never fails, matching a successful `crypto.hash` call). -/
def hashStr (s : String) : String := "H(" ++ s ++ ")"

/-- Modelled from the spec: the opaque Signer collaborator (section 6,
"sign(bytes) gives signature bytes"); RSA signing lives in the external
lockey library. Modelled as a deterministic, always non-empty byte
sequence. -/
def cryptoSign (s : String) : List Nat := 1 :: s.data.map Char.toNat

/-- `chain::Timestamp` (transaction.hpp): `{int32_t sec; uint32_t nanosec;}`. -/
structure Timestamp where
  sec : Int
  nanosec : Nat
deriving DecidableEq, Repr, Inhabited

/-- `chain::Transaction<T>` (transaction.hpp).  The payload `function_` is
modelled by its canonical `to_string()` form. -/
structure Transaction where
  timestamp_ : Timestamp
  priority_ : Int
  uuid_ : String
  function_ : String
  signature_ : List Nat
deriving DecidableEq, Repr, Inhabited

/-- `Transaction::Transaction(uuid, function, priority)` with the clock value
passed explicitly. -/
def Transaction.make (uuid : String) (function : String) (priority : Int)
    (now : Timestamp) : Transaction :=
  { timestamp_ := now, priority_ := priority, uuid_ := uuid,
    function_ := function, signature_ := [] }

/-- `Transaction::toString`: the stream concatenation of `timestamp_.sec`,
`timestamp_.nanosec`, `priority_`, `uuid_` and `function_.to_string()`. -/
def Transaction.toString (t : Transaction) : String :=
  intStr t.timestamp_.sec ++ natStr t.timestamp_.nanosec ++ intStr t.priority_
    ++ t.uuid_ ++ t.function_

/-- `Transaction::signTransaction`: `signature_ = privateKey_->sign(toString())`. -/
def Transaction.signTransaction (t : Transaction) : Transaction :=
  { t with signature_ := cryptoSign t.toString }

/-- `Transaction::isValid` (transaction.hpp lines 94-101): false when the
uuid is empty, the payload string is empty, the signature is empty, or the
priority lies outside [0,255]; true otherwise. -/
def Transaction.isValid (t : Transaction) : Bool :=
  if t.uuid_ == "" || t.function_ == "" || t.signature_.isEmpty
      || decide (t.priority_ < 0) || decide (t.priority_ > 255) then
    false
  else
    true

/-- Modelled from the spec: `MerkleTree` combine step (section 4.2, "combine
adjacent pairs level by level, hashing left concatenated with right");
merkle.hpp is not among the repository sources. -/
def combine (l r : String) : String := hashStr (l ++ r)

/-- Modelled from the spec: one level-up step of the Merkle tree; an
odd-sized level duplicates the last node's hash before combining
(section 4.2). -/
def nextLevel : List String → List String
  | [] => []
  | [x] => [combine x x]
  | x :: y :: rest => combine x y :: nextLevel rest

/-- Modelled from the spec: the root of a level list, computed with explicit
fuel so that it reduces structurally; `rootAux` supplies adequate fuel. -/
def rootAuxF : Nat → List String → String
  | 0, lvl => lvl.headD ""
  | fuel + 1, lvl =>
    if lvl.length ≤ 1 then lvl.headD "" else rootAuxF fuel (nextLevel lvl)

/-- Modelled from the spec: the root of a level list; zero leaves give the
empty sentinel root, one node is returned unchanged (section 4.2). -/
def rootAux (lvl : List String) : String := rootAuxF lvl.length lvl

/-- Modelled from the spec: the inclusion proof for position `i`, computed
with explicit fuel so that it reduces structurally; `proofAux` supplies
adequate fuel. -/
def proofAuxF : Nat → List String → Nat → List (String × Bool)
  | 0, _, _ => []
  | fuel + 1, lvl, i =>
    if lvl.length ≤ 1 then []
    else
      let sib := if i % 2 == 1 then lvl.getD (i - 1) ""
                 else lvl.getD (i + 1) (lvl.getD i "")
      (sib, i % 2 == 1) :: proofAuxF fuel (nextLevel lvl) (i / 2)

/-- Modelled from the spec: the inclusion proof for leaf position `i` — the
ordered (sibling hash, sibling-is-left) pairs from leaf level to root
(section 4.2, "get_proof(index) gives ordered (sibling_hash, is_left)
pairs"). -/
def proofAux (lvl : List String) (i : Nat) : List (String × Bool) :=
  proofAuxF lvl.length lvl i

/-- Modelled from the spec: `MerkleTree` (section 4.2); it stores the hashed
leaves (level 0) from which root and proofs are derived. -/
structure MerkleTree where
  leaves : List String
deriving DecidableEq, Repr, Inhabited

/-- Modelled from the spec: `build(leaf strings)` hashes each leaf
independently (section 4.2). -/
def MerkleTree.build (leafValues : List String) : MerkleTree :=
  ⟨leafValues.map hashStr⟩

/-- Modelled from the spec: `get_root()` (section 4.2). -/
def MerkleTree.getRoot (t : MerkleTree) : String := rootAux t.leaves

/-- Modelled from the spec: `get_proof(index)` (section 4.2). -/
def MerkleTree.getProof (t : MerkleTree) (i : Nat) : List (String × Bool) :=
  proofAux t.leaves i

/-- Modelled from the spec: the upward recomputation inside `verify_proof`
(section 4.2, "recompute upward"). -/
def recomputeRoot (leafHash : String) (proof : List (String × Bool)) : String :=
  proof.foldl (fun cur p => if p.2 then combine p.1 cur else combine cur p.1)
    leafHash

/-- Modelled from the spec: `verify_proof(leaf_value, index, proof,
expected_root)` — recompute upward from the hashed leaf along the proof and
compare with the tree root; pure, no side effects (section 4.2).  The index
argument mirrors the C++ call signature; the climbing directions are taken
from the proof's `is_left` flags. -/
def MerkleTree.verifyProof (t : MerkleTree) (leafValue : String) (_i : Nat)
    (proof : List (String × Bool)) : Bool :=
  recomputeRoot (hashStr leafValue) proof == t.getRoot

/-- `chain::Block<T>` (block.hpp, the Merkle-enabled variant). -/
structure Block where
  index_ : Int
  previous_hash_ : String
  hash_ : String
  transactions_ : List Transaction
  nonce_ : Int
  timestamp_ : Timestamp
  merkle_root : String
deriving DecidableEq, Repr, Inhabited

/-- The Merkle root of a transaction list's canonical strings, as built by
`Block::buildMerkleTree` (block.hpp lines 119-126). -/
def buildMerkleRootOf (txns : List Transaction) : String :=
  (MerkleTree.build (txns.map Transaction.toString)).getRoot

/-- `Block::buildMerkleTree` (block.hpp lines 119-126). -/
def Block.buildMerkleTree (b : Block) : Block :=
  { b with merkle_root := buildMerkleRootOf b.transactions_ }

/-- `Block::calculateHash` (block.hpp lines 129-146): hash of the stream
concatenation of index, seconds, nanoseconds, previous hash, nonce and
Merkle root; the modelled hash always succeeds, as lockey's SHA-256 does. -/
def Block.calculateHash (b : Block) : String :=
  hashStr (intStr b.index_ ++ intStr b.timestamp_.sec ++ natStr b.timestamp_.nanosec
    ++ b.previous_hash_ ++ intStr b.nonce_ ++ b.merkle_root)

/-- `Block::Block(txns)` (block.hpp lines 104-116) with the clock value
passed explicitly: index 0, previous hash "GENESIS", nonce 0, Merkle tree
built, then `hash_ = calculateHash()`. -/
def Block.ofTxns (txns : List Transaction) (now : Timestamp) : Block :=
  let b : Block :=
    { index_ := 0, previous_hash_ := "GENESIS", hash_ := "",
      transactions_ := txns, nonce_ := 0, timestamp_ := now,
      merkle_root := buildMerkleRootOf txns }
  { b with hash_ := b.calculateHash }

/-- `Block::isValid` (block.hpp lines 148-182): basic field checks, stored
hash against recomputation, Merkle root against recomputation, and validity
of every transaction. -/
def Block.isValid (b : Block) : Bool :=
  if decide (b.index_ < 0) || b.previous_hash_ == "" || b.hash_ == "" then false
  else if b.hash_ != b.calculateHash then false
  else if b.merkle_root != buildMerkleRootOf b.transactions_ then false
  else b.transactions_.all Transaction.isValid

/-- `Block::verifyTransaction` (block.hpp lines 185-200): out-of-range index
gives false; otherwise build a fresh tree over the canonical strings, take
the proof for the position and verify the stored canonical string against
the root. -/
def Block.verifyTransaction (b : Block) (transaction_index : Nat) : Bool :=
  if transaction_index ≥ b.transactions_.length then false
  else
    let tx_strings := b.transactions_.map Transaction.toString
    let verification_tree := MerkleTree.build tx_strings
    let proof := verification_tree.getProof transaction_index
    verification_tree.verifyProof (tx_strings.getD transaction_index "")
      transaction_index proof

/-- Insertion into an `unordered_set<string>`: no effect when the element is
already present. -/
def setInsert (s : List String) (x : String) : List String :=
  if x ∈ s then s else s ++ [x]

/-- `unordered_map` insert-or-assign (`m[k] = v`). -/
def assocSet {β : Type} (l : List (String × β)) (k : String) (v : β) :
    List (String × β) :=
  match l with
  | [] => [(k, v)]
  | (k', v') :: rest =>
      if k' = k then (k, v) :: rest else (k', v') :: assocSet rest k v

/-- `unordered_map` lookup returning an option. -/
def assocFind {β : Type} (l : List (String × β)) (k : String) : Option β :=
  match l with
  | [] => none
  | (k', v') :: rest => if k' = k then some v' else assocFind rest k

/-- `chain::Authenticator` (auth.hpp): the private containers, with the
unordered sets/maps modelled as lists carrying set/assoc-map semantics. -/
structure Authenticator where
  authorized_participants_ : List String
  used_transaction_ids_ : List String
  participant_states_ : List (String × String)
  participant_capabilities_ : List (String × List String)
  participant_metadata_ : List (String × List (String × String))
deriving DecidableEq, Repr, Inhabited

/-- `Authenticator::Authenticator()`: all containers empty. -/
def Authenticator.empty : Authenticator := ⟨[], [], [], [], []⟩

/-- `Authenticator::isParticipantAuthorized` (auth.hpp lines 220-222). -/
def Authenticator.isParticipantAuthorized (a : Authenticator)
    (participant_id : String) : Bool :=
  participant_id ∈ a.authorized_participants_

/-- `Authenticator::registerParticipant` (auth.hpp lines 208-217): insert the
id, set the state, and store the metadata map when non-empty. -/
def Authenticator.registerParticipant (a : Authenticator)
    (participant_id : String) (initial_state : String)
    (metadata : List (String × String)) : Authenticator :=
  let a' := { a with
    authorized_participants_ := setInsert a.authorized_participants_ participant_id,
    participant_states_ := assocSet a.participant_states_ participant_id initial_state }
  if metadata.isEmpty then a'
  else { a' with
    participant_metadata_ := assocSet a'.participant_metadata_ participant_id metadata }

/-- `Authenticator::getParticipantState` (auth.hpp lines 225-228). -/
def Authenticator.getParticipantState (a : Authenticator)
    (participant_id : String) : String :=
  (assocFind a.participant_states_ participant_id).getD "unknown"

/-- `Authenticator::updateParticipantState` (auth.hpp lines 231-238); the
boolean result is paired with the post-state. -/
def Authenticator.updateParticipantState (a : Authenticator)
    (participant_id new_state : String) : Authenticator × Bool :=
  if !a.isParticipantAuthorized participant_id then (a, false)
  else ({ a with participant_states_ :=
            assocSet a.participant_states_ participant_id new_state }, true)

/-- `Authenticator::getParticipantMetadata` (auth.hpp lines 241-248). -/
def Authenticator.getParticipantMetadata (a : Authenticator)
    (participant_id key : String) : String :=
  match assocFind a.participant_metadata_ participant_id with
  | none => ""
  | some m => (assocFind m key).getD ""

/-- `Authenticator::setParticipantMetadata` (auth.hpp lines 251-256):
`participant_metadata_[id][key] = value` behind the authorization guard
(`operator[]` inserts an empty map for an absent id). -/
def Authenticator.setParticipantMetadata (a : Authenticator)
    (participant_id key value : String) : Authenticator :=
  if a.isParticipantAuthorized participant_id then
    let m := (assocFind a.participant_metadata_ participant_id).getD []
    { a with participant_metadata_ :=
        assocSet a.participant_metadata_ participant_id (assocSet m key value) }
  else a

/-- `Authenticator::isTransactionUsed` (auth.hpp lines 259-261). -/
def Authenticator.isTransactionUsed (a : Authenticator) (tx_id : String) : Bool :=
  tx_id ∈ a.used_transaction_ids_

/-- `Authenticator::markTransactionUsed` (auth.hpp line 264). -/
def Authenticator.markTransactionUsed (a : Authenticator) (tx_id : String) :
    Authenticator :=
  { a with used_transaction_ids_ := setInsert a.used_transaction_ids_ tx_id }

/-- `Authenticator::grantCapability` (auth.hpp lines 267-271): behind the
guard, `participant_capabilities_[id].push_back(capability)` (`operator[]`
inserts an empty vector for an absent id; duplicates are kept). -/
def Authenticator.grantCapability (a : Authenticator)
    (participant_id capability : String) : Authenticator :=
  if a.isParticipantAuthorized participant_id then
    let caps := (assocFind a.participant_capabilities_ participant_id).getD []
    { a with participant_capabilities_ :=
        assocSet a.participant_capabilities_ participant_id (caps ++ [capability]) }
  else a

/-- `Authenticator::revokeCapability` (auth.hpp lines 274-280): behind the
guard, erase-remove of every occurrence of the capability. -/
def Authenticator.revokeCapability (a : Authenticator)
    (participant_id capability : String) : Authenticator :=
  if a.isParticipantAuthorized participant_id then
    let caps := (assocFind a.participant_capabilities_ participant_id).getD []
    { a with participant_capabilities_ :=
        assocSet a.participant_capabilities_ participant_id (caps.filter (fun c => c != capability)) }
  else a

/-- `Authenticator::hasCapability` (auth.hpp lines 283-290). -/
def Authenticator.hasCapability (a : Authenticator)
    (participant_id capability : String) : Bool :=
  match assocFind a.participant_capabilities_ participant_id with
  | none => false
  | some caps => capability ∈ caps

/-- `Authenticator::validateAndRecordAction` (auth.hpp lines 293-320):
reject an already-used transaction id, an unregistered issuer, or a missing
required capability, each with no mutation; otherwise mark the id used and
succeed.  The boolean result is paired with the post-state. -/
def Authenticator.validateAndRecordAction (a : Authenticator)
    (issuer_participant _action_description tx_id required_capability : String) :
    Authenticator × Bool :=
  if a.isTransactionUsed tx_id then (a, false)
  else if !a.isParticipantAuthorized issuer_participant then (a, false)
  else if required_capability != "" && !a.hasCapability issuer_participant required_capability then
    (a, false)
  else (a.markTransactionUsed tx_id, true)

/-- `chain::Chain<T>` (chain.hpp). -/
structure Chain where
  uuid_ : String
  timestamp_ : Timestamp
  blocks_ : List Block
  entity_manager_ : Authenticator
deriving DecidableEq, Repr, Inhabited

/-- `Chain::Chain()` — the default constructor: no blocks, empty
authenticator. -/
def Chain.empty : Chain :=
  { uuid_ := "", timestamp_ := ⟨0, 0⟩, blocks_ := [],
    entity_manager_ := Authenticator.empty }

/-- `Chain::Chain(s_uuid, t_uuid, function, privateKey_, priority)`
(chain.hpp lines 21-28) with the clock value passed explicitly: a signed
genesis transaction wrapped in a genesis block; the authenticator stays
empty and the genesis uuid is not marked used. -/
def Chain.init (s_uuid t_uuid function : String) (priority : Int)
    (now : Timestamp) : Chain :=
  let genesisTransaction := (Transaction.make t_uuid function priority now).signTransaction
  let genesisBlock := Block.ofTxns [genesisTransaction] now
  { uuid_ := s_uuid, timestamp_ := ⟨0, 0⟩, blocks_ := [genesisBlock],
    entity_manager_ := Authenticator.empty }

/-- `Chain::Chain(s_uuid, t_uuid, function, priority)` (chain.hpp lines
30-35): like `Chain.init` but the genesis transaction is left unsigned. -/
def Chain.initUnsigned (s_uuid t_uuid function : String) (priority : Int)
    (now : Timestamp) : Chain :=
  let genesisTransaction := Transaction.make t_uuid function priority now
  let genesisBlock := Block.ofTxns [genesisTransaction] now
  { uuid_ := s_uuid, timestamp_ := ⟨0, 0⟩, blocks_ := [genesisBlock],
    entity_manager_ := Authenticator.empty }

/-- The relinking performed on the local copy inside `Chain::addBlock`
(chain.hpp lines 39-41 and 55-57): overwrite previous hash and index from
the tail, rebuild the Merkle tree, then recompute the stored hash. -/
def Chain.relinked (tail : Block) (newBlock : Block) : Block :=
  let b1 := { newBlock with previous_hash_ := tail.hash_, index_ := tail.index_ + 1 }
  let b2 := b1.buildMerkleTree
  { b2 with hash_ := b2.calculateHash }

/-- The body of `Chain::addBlock(const Block&)` (chain.hpp lines 43-71) once
the tail read has succeeded: the duplicate check over the candidate's
transactions against the used set, the validity check of the relinked block,
and on success the marking of every transaction uuid and the append; the
boolean result is paired with the post-state. -/
def Chain.addBlockTail (c : Chain) (tail newBlock : Block) : Chain × Bool :=
  if newBlock.transactions_.any
      (fun txn => c.entity_manager_.isTransactionUsed txn.uuid_) then
    (c, false)
  else if !(Chain.relinked tail newBlock).isValid then
    (c, false)
  else
    ({ c with
      blocks_ := c.blocks_ ++ [Chain.relinked tail newBlock],
      entity_manager_ := newBlock.transactions_.foldl
        (fun em txn => em.markTransactionUsed txn.uuid_) c.entity_manager_ }, true)

/-- `Chain::addBlock(const Block&)` (chain.hpp lines 38-72).  `blocks_.back()`
is read unguarded, which on an empty chain is undefined behaviour, modelled
as `none`. -/
def Chain.addBlock (c : Chain) (newBlock : Block) : Option (Chain × Bool) :=
  match c.blocks_.getLast? with
  | none => none
  | some tail => some (c.addBlockTail tail newBlock)

/-- The loop body of `Chain::isValid` (chain.hpp lines 90-105): every block
after the first must itself be valid and point at its predecessor's hash. -/
def linkedFrom (prev : Block) : List Block → Bool
  | [] => true
  | b :: rest => b.isValid && b.previous_hash_ == prev.hash_ && linkedFrom b rest

/-- The block-list part of `Chain::isValid` (chain.hpp lines 83-107): false
on an empty list, the single block's own validity for length one, and
otherwise the loop starting at index 1 (the first block's own validity is
not rechecked). -/
def blocksValid : List Block → Bool
  | [] => false
  | b :: rest => if rest.isEmpty then b.isValid else linkedFrom b rest

/-- `Chain::isValid` (chain.hpp lines 83-107): reads only the stored
blocks. -/
def Chain.isValid (c : Chain) : Bool := blocksValid c.blocks_

/-- `Chain::getLastBlock` (chain.hpp lines 218-223): an explicit
`runtime_error` on an empty chain. -/
def Chain.getLastBlock (c : Chain) : Except String Block :=
  match c.blocks_.getLast? with
  | none => Except.error "Chain is empty"
  | some b => Except.ok b

/-- `Chain::getChainLength` (chain.hpp line 215). -/
def Chain.getChainLength (c : Chain) : Nat := c.blocks_.length

/-- A fixed clock value for the concrete scenarios. -/
def ts0 : Timestamp := ⟨0, 0⟩

/-- A signed transaction with the given uuid, payload string and priority. -/
def txSigned (u fn : String) (p : Int) : Transaction :=
  (Transaction.make u fn p ts0).signTransaction

/-- The scenario chain: genesis record {id="g", payload="genesis", priority=100}. -/
def cG : Chain := Chain.init "C1" "g" "genesis" 100 ts0

/-- A well-formed candidate block carrying the record {id="t1", payload="op", priority=50}. -/
def blk1 : Block := Block.ofTxns [txSigned "t1" "op1" 50] ts0

/-- A second well-formed candidate block with a fresh record id. -/
def blk2 : Block := Block.ofTxns [txSigned "t2" "op2" 60] ts0

/-- A candidate block that reuses the genesis transaction uuid "g". -/
def blkG : Block := Block.ofTxns [txSigned "g" "op" 50] ts0

/-- A candidate block holding an invalid (empty-uuid, unsigned) record. -/
def blkBad : Block := Block.ofTxns [Transaction.make "" "" 100 ts0] ts0

/-- A block built from one well-formed but unsigned record. -/
def blkUnsigned : Block := Block.ofTxns [Transaction.make "t1" "op" 50 ts0] ts0

/-- A three-record block, exercising the odd-level duplication of the Merkle
tree. -/
def blkW : Block :=
  Block.ofTxns [txSigned "a" "pa" 1, txSigned "b" "pb" 2, txSigned "c" "pc" 3] ts0

/-- The chain after appending `blk1` to the scenario chain. -/
def c1 : Chain := ((Chain.addBlock cG blk1).getD (Chain.empty, false)).1

/-- The chain after further appending `blk2`. -/
def c2 : Chain := ((Chain.addBlock c1 blk2).getD (Chain.empty, false)).1

/-- A genesis-shaped block whose stored hash has been tampered to "x". -/
def b0bad : Block := { Block.ofTxns [txSigned "g" "genesis" 100] ts0 with hash_ := "x" }

/-- A chain whose genesis block is invalid but whose second block is valid
and correctly linked to the tampered hash. -/
def cBad : Chain :=
  { Chain.empty with blocks_ := [b0bad, Chain.relinked b0bad blk1] }

/-- The authenticator of the scenario: participant "p1" registered and then
granted the capability "WRITE". -/
def aW : Authenticator :=
  (Authenticator.empty.registerParticipant "p1" "inactive" []).grantCapability
    "p1" "WRITE"

/-- The chains reachable by constructing with a genesis record (either
constructor) and performing any sequence of `addBlock` calls. -/
inductive Reached : Chain → Prop where
  | init : ∀ s t fn p now, Reached (Chain.init s t fn p now)
  | initUnsigned : ∀ s t fn p now, Reached (Chain.initUnsigned s t fn p now)
  | stepTrue : ∀ c nb c', Reached c → Chain.addBlock c nb = some (c', true) →
      Reached c'
  | stepFalse : ∀ c nb c', Reached c → Chain.addBlock c nb = some (c', false) →
      Reached c'

theorem str_append_cancel_left {a x y : String} (h : a ++ x = a ++ y) : x = y := by
  have hd := congrArg String.data h
  simp only [String.data_append] at hd
  have h2 := List.append_cancel_left hd
  cases x; cases y; simp_all

theorem str_append_cancel_right {x y a : String} (h : x ++ a = y ++ a) : x = y := by
  have hd := congrArg String.data h
  simp only [String.data_append] at hd
  have h2 := List.append_cancel_right hd
  cases x; cases y; simp_all

theorem hashStr_inj {s t : String} (h : hashStr s = hashStr t) : s = t := by
  unfold hashStr at h
  exact str_append_cancel_left (str_append_cancel_right h)

theorem hashStr_ne_empty (s : String) : hashStr s ≠ "" := by
  intro h
  have hd := congrArg String.data h
  simp [hashStr, String.data_append] at hd

theorem combine_cancel_left {a x y : String} (h : combine a x = combine a y) :
    x = y :=
  str_append_cancel_left (hashStr_inj h)

theorem combine_cancel_right {x y a : String} (h : combine x a = combine y a) :
    x = y :=
  str_append_cancel_right (hashStr_inj h)

theorem nextLevel_length (lvl : List String) :
    (nextLevel lvl).length = (lvl.length + 1) / 2 := by
  induction lvl using nextLevel.induct with
  | case1 => simp [nextLevel]
  | case2 x => simp [nextLevel]
  | case3 x y rest ih => simp [nextLevel, ih]; omega

theorem rootAuxF_congr : ∀ n, ∀ f1 f2 : Nat, ∀ lvl : List String,
    lvl.length = n → lvl.length ≤ f1 → lvl.length ≤ f2 →
    rootAuxF f1 lvl = rootAuxF f2 lvl := by
  intro n
  induction n using Nat.strong_induction_on with
  | _ n ih =>
    intro f1 f2 lvl hn h1 h2
    by_cases hsmall : lvl.length ≤ 1
    · cases f1 with
      | zero => cases f2 with
        | zero => rfl
        | succ f2 => simp [rootAuxF, hsmall]
      | succ f1 => cases f2 with
        | zero => simp [rootAuxF, hsmall]
        | succ f2 => simp [rootAuxF, hsmall]
    · cases f1 with
      | zero => omega
      | succ f1 => cases f2 with
        | zero => omega
        | succ f2 =>
          simp only [rootAuxF, hsmall, if_false]
          have hlt : (nextLevel lvl).length < n := by
            rw [nextLevel_length]; omega
          exact ih _ hlt f1 f2 (nextLevel lvl) rfl
            (by rw [nextLevel_length]; omega) (by rw [nextLevel_length]; omega)

theorem rootAux_eq (lvl : List String) :
    rootAux lvl = if lvl.length ≤ 1 then lvl.headD "" else rootAux (nextLevel lvl) := by
  by_cases hsmall : lvl.length ≤ 1
  · match lvl with
    | [] => rfl
    | [x] => rfl
    | x :: y :: rest => simp at hsmall
  · obtain ⟨m, hl⟩ : ∃ m, lvl.length = m + 1 := ⟨lvl.length - 1, by omega⟩
    unfold rootAux
    rw [hl]
    simp only [rootAuxF, if_neg hsmall, if_neg (by omega : ¬ m + 1 ≤ 1)]
    exact rootAuxF_congr (nextLevel lvl).length m (nextLevel lvl).length
      (nextLevel lvl) rfl (by rw [nextLevel_length]; omega) (le_refl _)

theorem proofAuxF_congr : ∀ n, ∀ f1 f2 : Nat, ∀ lvl : List String, ∀ i : Nat,
    lvl.length = n → lvl.length ≤ f1 → lvl.length ≤ f2 →
    proofAuxF f1 lvl i = proofAuxF f2 lvl i := by
  intro n
  induction n using Nat.strong_induction_on with
  | _ n ih =>
    intro f1 f2 lvl i hn h1 h2
    by_cases hsmall : lvl.length ≤ 1
    · cases f1 with
      | zero => cases f2 with
        | zero => rfl
        | succ f2 => simp [proofAuxF, hsmall]
      | succ f1 => cases f2 with
        | zero => simp [proofAuxF, hsmall]
        | succ f2 => simp [proofAuxF, hsmall]
    · cases f1 with
      | zero => omega
      | succ f1 => cases f2 with
        | zero => omega
        | succ f2 =>
          simp only [proofAuxF, hsmall, if_false]
          have hlt : (nextLevel lvl).length < n := by
            rw [nextLevel_length]; omega
          exact congrArg _ (ih _ hlt f1 f2 (nextLevel lvl) (i / 2) rfl
            (by rw [nextLevel_length]; omega) (by rw [nextLevel_length]; omega))

theorem proofAux_eq (lvl : List String) (i : Nat) :
    proofAux lvl i =
      if lvl.length ≤ 1 then []
      else
        (if i % 2 == 1 then lvl.getD (i - 1) ""
         else lvl.getD (i + 1) (lvl.getD i ""), i % 2 == 1)
          :: proofAux (nextLevel lvl) (i / 2) := by
  by_cases hsmall : lvl.length ≤ 1
  · match lvl with
    | [] => rfl
    | [x] => rfl
    | x :: y :: rest => simp at hsmall
  · obtain ⟨m, hl⟩ : ∃ m, lvl.length = m + 1 := ⟨lvl.length - 1, by omega⟩
    unfold proofAux
    rw [hl]
    simp only [proofAuxF, if_neg hsmall, if_neg (by omega : ¬ m + 1 ≤ 1)]
    exact congrArg _ (proofAuxF_congr (nextLevel lvl).length m
      (nextLevel lvl).length (nextLevel lvl) (i / 2) rfl
      (by rw [nextLevel_length]; omega) (le_refl _))

theorem nextLevel_getD (lvl : List String) (i : Nat) (h : 2 * i < lvl.length) :
    (nextLevel lvl).getD i "" =
      combine (lvl.getD (2 * i) "") (lvl.getD (2 * i + 1) (lvl.getD (2 * i) "")) := by
  induction i generalizing lvl with
  | zero =>
    match lvl with
    | [] => simp at h
    | [x] => simp [nextLevel]
    | x :: y :: rest => simp [nextLevel]
  | succ i ih =>
    match lvl with
    | [] => simp at h
    | [x] => simp at h
    | x :: y :: rest =>
      have h' : 2 * i < rest.length := by simp at h; omega
      have e1 : 2 * (i + 1) = 2 * i + 1 + 1 := by omega
      have e2 : 2 * (i + 1) + 1 = 2 * i + 1 + 1 + 1 := by omega
      rw [e2, e1]
      simp only [nextLevel, List.getD_cons_succ]
      exact ih rest h'

theorem getD_irrel (l : List String) (n : Nat) (d1 d2 : String)
    (h : n < l.length) : l.getD n d1 = l.getD n d2 := by
  induction l generalizing n with
  | nil => simp at h
  | cons a l ih =>
    cases n with
    | zero => rfl
    | succ n => simpa using ih n (by simpa using h)

theorem recomputeRoot_cons (x : String) (p : String × Bool)
    (rest : List (String × Bool)) :
    recomputeRoot x (p :: rest) =
      recomputeRoot (if p.2 then combine p.1 x else combine x p.1) rest := rfl

theorem recomputeRoot_cons_left (x s : String) (rest : List (String × Bool)) :
    recomputeRoot x ((s, true) :: rest) = recomputeRoot (combine s x) rest := rfl

theorem recomputeRoot_cons_right (x s : String) (rest : List (String × Bool)) :
    recomputeRoot x ((s, false) :: rest) = recomputeRoot (combine x s) rest := rfl

theorem proofAux_eq_odd (lvl : List String) (i : Nat)
    (hsmall : ¬ lvl.length ≤ 1) (hodd : i % 2 = 1) :
    proofAux lvl i =
      (lvl.getD (i - 1) "", true) :: proofAux (nextLevel lvl) (i / 2) := by
  rw [proofAux_eq]
  have hb : (i % 2 == 1) = true := by simp [hodd]
  simp [hsmall, hb]

theorem proofAux_eq_even (lvl : List String) (i : Nat)
    (hsmall : ¬ lvl.length ≤ 1) (heven : i % 2 = 0) :
    proofAux lvl i =
      (lvl.getD (i + 1) (lvl.getD i ""), false)
        :: proofAux (nextLevel lvl) (i / 2) := by
  rw [proofAux_eq]
  have hb : (i % 2 == 1) = false := by simp [heven]
  simp [hsmall, hb]

theorem recomputeRoot_inj (proof : List (String × Bool)) :
    ∀ x y, recomputeRoot x proof = recomputeRoot y proof → x = y := by
  induction proof with
  | nil => intro x y h; exact h
  | cons p rest ih =>
    intro x y h
    rw [recomputeRoot_cons, recomputeRoot_cons] at h
    have h2 := ih _ _ h
    cases hp : p.2
    · rw [hp] at h2
      simp only [Bool.false_eq_true, if_false] at h2
      exact combine_cancel_right h2
    · rw [hp] at h2
      simp only [if_true] at h2
      exact combine_cancel_left h2

theorem recomputeRoot_proofAux : ∀ n (lvl : List String), lvl.length = n →
    ∀ i, i < lvl.length →
    recomputeRoot (lvl.getD i "") (proofAux lvl i) = rootAux lvl := by
  intro n
  induction n using Nat.strong_induction_on with
  | _ n ih =>
    intro lvl hn i hi
    by_cases hsmall : lvl.length ≤ 1
    · match lvl with
      | [] => simp at hi
      | [x] =>
        have h0 : i = 0 := by
          simp only [List.length_cons, List.length_nil] at hi
          omega
        subst h0
        rfl
    · rw [rootAux_eq, if_neg hsmall]
      have hlen2 : (nextLevel lvl).length = (lvl.length + 1) / 2 :=
        nextLevel_length lvl
      have hlt : (nextLevel lvl).length < n := by omega
      have hi2 : i / 2 < (nextLevel lvl).length := by omega
      have htail := ih _ hlt (nextLevel lvl) rfl (i / 2) hi2
      by_cases hodd : i % 2 = 1
      · rw [proofAux_eq_odd lvl i hsmall hodd, recomputeRoot_cons_left]
        have hnl := nextLevel_getD lvl (i / 2) (by omega)
        have e2 : 2 * (i / 2) + 1 = i := by omega
        have e1 : 2 * (i / 2) = i - 1 := by omega
        rw [e2, e1] at hnl
        rw [getD_irrel lvl i (lvl.getD (i - 1) "") "" hi] at hnl
        rw [← hnl]
        exact htail
      · have heven : i % 2 = 0 := by omega
        rw [proofAux_eq_even lvl i hsmall heven, recomputeRoot_cons_right]
        have hnl := nextLevel_getD lvl (i / 2) (by omega)
        have e1 : 2 * (i / 2) = i := by omega
        rw [e1] at hnl
        rw [← hnl]
        exact htail

/-- Tamper detection along a fixed proof path: recomputing with a different
leaf value can never reproduce the same root. -/
theorem recomputeRoot_ne {s s' : String} (proof : List (String × Bool))
    (h : s ≠ s') :
    recomputeRoot (hashStr s) proof ≠ recomputeRoot (hashStr s') proof := by
  intro he
  exact h (hashStr_inj (recomputeRoot_inj proof _ _ he))

theorem calculateHash_ne_empty (b : Block) : b.calculateHash ≠ "" :=
  hashStr_ne_empty _

theorem Block.isValid_of (b : Block)
    (h1 : 0 ≤ b.index_) (h2 : b.previous_hash_ ≠ "")
    (h3 : b.hash_ = b.calculateHash)
    (h4 : b.merkle_root = buildMerkleRootOf b.transactions_)
    (h5 : ∀ t ∈ b.transactions_, t.isValid = true) : b.isValid = true := by
  have e1 : decide (b.index_ < 0) = false := decide_eq_false (by omega)
  have e2 : (b.previous_hash_ == "") = false := beq_eq_false_iff_ne.mpr h2
  have e3 : (b.hash_ == "") = false := by
    rw [h3]; exact beq_eq_false_iff_ne.mpr (calculateHash_ne_empty b)
  have eB : (b.hash_ != b.calculateHash) = false := by simp [bne, h3]
  have eC : (b.merkle_root != buildMerkleRootOf b.transactions_) = false := by
    simp [bne, h4]
  unfold Block.isValid
  rw [e1, e2, e3, eB, eC]
  simp only [Bool.or_false, Bool.false_eq_true, if_false]
  exact List.all_eq_true.mpr h5

theorem Block.isValid_field_conditions (b : Block) (h : b.isValid = true) :
    0 ≤ b.index_ ∧ b.previous_hash_ ≠ "" ∧ b.hash_ = b.calculateHash ∧
      b.merkle_root = buildMerkleRootOf b.transactions_ ∧
      (∀ t ∈ b.transactions_, t.isValid = true) := by
  unfold Block.isValid at h
  by_cases hA : (decide (b.index_ < 0) || b.previous_hash_ == "" || b.hash_ == "") = true
  · rw [if_pos hA] at h; exact absurd h (by simp)
  · rw [if_neg hA] at h
    by_cases hB : (b.hash_ != b.calculateHash) = true
    · rw [if_pos hB] at h; exact absurd h (by simp)
    · rw [if_neg hB] at h
      by_cases hC : (b.merkle_root != buildMerkleRootOf b.transactions_) = true
      · rw [if_pos hC] at h; exact absurd h (by simp)
      · rw [if_neg hC] at h
        simp only [Bool.or_eq_true, decide_eq_true_eq, beq_iff_eq, not_or] at hA
        simp only [bne, Bool.not_eq_true', beq_eq_false_iff_ne, ne_eq] at hB hC
        refine ⟨by omega, hA.1.2, by simpa using hB, by simpa using hC,
          List.all_eq_true.mp h⟩

theorem getD_map_hashStr (l : List String) (i : Nat) (h : i < l.length) :
    (l.map hashStr).getD i "" = hashStr (l.getD i "") := by
  induction l generalizing i with
  | nil => simp at h
  | cons a l ih =>
    cases i with
    | zero => rfl
    | succ i => simpa using ih i (by simpa using h)

theorem verifyTransaction_in_range (b : Block) (i : Nat)
    (h : i < b.transactions_.length) : b.verifyTransaction i = true := by
  unfold Block.verifyTransaction
  rw [if_neg (by omega)]
  show (recomputeRoot (hashStr ((b.transactions_.map Transaction.toString).getD i ""))
      (proofAux ((b.transactions_.map Transaction.toString).map hashStr) i)
      == rootAux ((b.transactions_.map Transaction.toString).map hashStr)) = true
  rw [← getD_map_hashStr (b.transactions_.map Transaction.toString) i (by simpa using h)]
  rw [recomputeRoot_proofAux ((b.transactions_.map Transaction.toString).map hashStr).length
    _ rfl i (by simpa using h)]
  exact beq_self_eq_true _

theorem verifyTransaction_out_of_range (b : Block) (i : Nat)
    (h : b.transactions_.length ≤ i) : b.verifyTransaction i = false := by
  unfold Block.verifyTransaction
  rw [if_pos (by omega)]

theorem verifyProof_tamper (b : Block) (i : Nat)
    (h : i < b.transactions_.length) (s' : String)
    (hne : s' ≠ (b.transactions_.map Transaction.toString).getD i "") :
    (MerkleTree.build (b.transactions_.map Transaction.toString)).verifyProof s' i
      ((MerkleTree.build (b.transactions_.map Transaction.toString)).getProof i)
      = false := by
  unfold MerkleTree.verifyProof MerkleTree.getProof MerkleTree.getRoot MerkleTree.build
  apply beq_eq_false_iff_ne.mpr
  intro he
  have hlen : i < (b.transactions_.map Transaction.toString).length := by simpa using h
  have hroot := recomputeRoot_proofAux
    ((b.transactions_.map Transaction.toString).map hashStr).length _ rfl i
    (by simpa using h)
  rw [getD_map_hashStr (b.transactions_.map Transaction.toString) i hlen] at hroot
  rw [← hroot] at he
  exact recomputeRoot_ne _ hne he

theorem isTransactionUsed_mark_iff (a : Authenticator) (x y : String) :
    (a.markTransactionUsed x).isTransactionUsed y = true ↔
      (y = x ∨ a.isTransactionUsed y = true) := by
  simp only [Authenticator.isTransactionUsed, Authenticator.markTransactionUsed,
    setInsert, decide_eq_true_eq]
  split
  · rename_i hx
    constructor
    · intro hy; exact Or.inr hy
    · intro hy
      rcases hy with hy | hy
      · subst hy; exact hx
      · exact hy
  · simp [List.mem_append, or_comm]

theorem isTransactionUsed_foldMark (l : List Transaction) (a : Authenticator)
    (y : String) :
    ((l.foldl (fun em txn => em.markTransactionUsed txn.uuid_) a).isTransactionUsed y
      = true) ↔ ((∃ t ∈ l, t.uuid_ = y) ∨ a.isTransactionUsed y = true) := by
  induction l generalizing a with
  | nil => simp
  | cons t l ih =>
    simp only [List.foldl_cons]
    rw [ih]
    rw [isTransactionUsed_mark_iff]
    constructor
    · rintro (h | h | h)
      · exact Or.inl ⟨h.choose, List.mem_cons_of_mem _ h.choose_spec.1, h.choose_spec.2⟩
      · exact Or.inl ⟨t, List.mem_cons_self _ _, h.symm⟩
      · exact Or.inr h
    · rintro (⟨u, hu, huy⟩ | h)
      · rcases List.mem_cons.mp hu with hu | hu
        · subst hu; exact Or.inr (Or.inl huy.symm)
        · exact Or.inl ⟨u, hu, huy⟩
      · exact Or.inr (Or.inr h)

theorem relinked_transactions (tail nb : Block) :
    (Chain.relinked tail nb).transactions_ = nb.transactions_ := rfl

theorem relinked_index (tail nb : Block) :
    (Chain.relinked tail nb).index_ = tail.index_ + 1 := rfl

theorem relinked_prev (tail nb : Block) :
    (Chain.relinked tail nb).previous_hash_ = tail.hash_ := rfl

theorem relinked_merkle (tail nb : Block) :
    (Chain.relinked tail nb).merkle_root = buildMerkleRootOf nb.transactions_ := rfl

theorem relinked_hash (tail nb : Block) :
    (Chain.relinked tail nb).hash_ = (Chain.relinked tail nb).calculateHash := rfl

theorem addBlock_none_iff (c : Chain) (nb : Block) :
    c.addBlock nb = none ↔ c.blocks_ = [] := by
  unfold Chain.addBlock
  cases hL : c.blocks_.getLast? with
  | none =>
    constructor
    · intro _; exact List.getLast?_eq_none_iff.mp hL
    · intro _; rfl
  | some tail =>
    constructor
    · intro h; exact Option.noConfusion h
    · intro h
      rw [h] at hL
      exact Option.noConfusion hL

theorem addBlock_some_eq {c : Chain} {nb : Block} {tail : Block}
    (hL : c.blocks_.getLast? = some tail) :
    c.addBlock nb = some (c.addBlockTail tail nb) := by
  unfold Chain.addBlock
  rw [hL]

theorem addBlock_false_eq {c : Chain} {nb : Block} {c' : Chain}
    (h : c.addBlock nb = some (c', false)) : c' = c := by
  cases hL : c.blocks_.getLast? with
  | none =>
    rw [(addBlock_none_iff c nb).mpr (List.getLast?_eq_none_iff.mp hL)] at h
    exact Option.noConfusion h
  | some tail =>
    rw [addBlock_some_eq hL] at h
    have h2 : c.addBlockTail tail nb = (c', false) := Option.some.inj h
    unfold Chain.addBlockTail at h2
    by_cases hd : (nb.transactions_.any
        fun txn => c.entity_manager_.isTransactionUsed txn.uuid_) = true
    · rw [if_pos hd] at h2
      exact (congrArg Prod.fst h2).symm
    · rw [if_neg hd] at h2
      by_cases hv : (!(Chain.relinked tail nb).isValid) = true
      · rw [if_pos hv] at h2
        exact (congrArg Prod.fst h2).symm
      · rw [if_neg hv] at h2
        exact absurd (congrArg Prod.snd h2) (by simp)

theorem addBlock_true_spec {c : Chain} {nb : Block} {c' : Chain}
    (h : c.addBlock nb = some (c', true)) :
    ∃ tail, c.blocks_.getLast? = some tail ∧
      (nb.transactions_.any fun txn =>
        c.entity_manager_.isTransactionUsed txn.uuid_) = false ∧
      (Chain.relinked tail nb).isValid = true ∧
      c'.blocks_ = c.blocks_ ++ [Chain.relinked tail nb] ∧
      c'.entity_manager_ = nb.transactions_.foldl
        (fun em txn => em.markTransactionUsed txn.uuid_) c.entity_manager_ ∧
      c'.uuid_ = c.uuid_ ∧ c'.timestamp_ = c.timestamp_ := by
  cases hL : c.blocks_.getLast? with
  | none =>
    rw [(addBlock_none_iff c nb).mpr (List.getLast?_eq_none_iff.mp hL)] at h
    exact Option.noConfusion h
  | some tail =>
    rw [addBlock_some_eq hL] at h
    have h2 : c.addBlockTail tail nb = (c', true) := Option.some.inj h
    unfold Chain.addBlockTail at h2
    refine ⟨tail, rfl, ?_⟩
    by_cases hd : (nb.transactions_.any
        fun txn => c.entity_manager_.isTransactionUsed txn.uuid_) = true
    · rw [if_pos hd] at h2
      exact absurd (congrArg Prod.snd h2) (by simp)
    · rw [if_neg hd] at h2
      by_cases hv : (!(Chain.relinked tail nb).isValid) = true
      · rw [if_pos hv] at h2
        exact absurd (congrArg Prod.snd h2) (by simp)
      · rw [if_neg hv] at h2
        have hc1 := congrArg Prod.fst h2
        simp only at hc1
        refine ⟨by simpa using hd, by simpa using hv, ?_, ?_, ?_, ?_⟩
        · rw [← hc1]
        · rw [← hc1]
        · rw [← hc1]
        · rw [← hc1]

theorem getLast?_cons_eq (p : Block) (bs : List Block) :
    (p :: bs).getLast? = some (bs.getLastD p) := by
  induction bs generalizing p with
  | nil => rfl
  | cons b bs ih => rw [List.getLastD_cons]; exact ih b

theorem linkedFrom_append (p : Block) (bs : List Block) (nb : Block)
    (h : linkedFrom p bs = true) (hv : nb.isValid = true)
    (hl : nb.previous_hash_ = (bs.getLastD p).hash_) :
    linkedFrom p (bs ++ [nb]) = true := by
  induction bs generalizing p with
  | nil =>
    simp only [List.nil_append, linkedFrom]
    simp only [List.getLastD] at hl
    simp [hv, hl]
  | cons b bs ih =>
    simp only [List.cons_append, linkedFrom, Bool.and_eq_true] at h ⊢
    rw [List.getLastD_cons] at hl
    exact ⟨h.1, ih b h.2 hl⟩

theorem blocksValid_cons (b : Block) (rest : List Block) :
    blocksValid (b :: rest) =
      if rest.isEmpty then b.isValid else linkedFrom b rest := rfl

theorem blocksValid_append (bs : List Block) (nb : Block)
    (hv : blocksValid bs = true) (hnb : nb.isValid = true)
    {tail : Block} (htail : bs.getLast? = some tail)
    (hl : nb.previous_hash_ = tail.hash_) :
    blocksValid (bs ++ [nb]) = true := by
  obtain ⟨b, rest, hbs⟩ : ∃ b rest, bs = b :: rest := by
    cases hbs : bs with
    | nil =>
      rw [hbs] at hv
      exact absurd hv (by simp [blocksValid])
    | cons b r => exact ⟨b, r, rfl⟩
  rw [hbs] at hv htail ⊢
  rw [List.cons_append, blocksValid_cons]
  rw [blocksValid_cons] at hv
  rw [getLast?_cons_eq] at htail
  have htd : tail = rest.getLastD b := (Option.some.inj htail).symm
  have hne : (rest ++ [nb]).isEmpty = false := by cases rest <;> rfl
  rw [hne]
  simp only [Bool.false_eq_true, if_false]
  have hlf : linkedFrom b rest = true := by
    cases hr : rest with
    | nil => rfl
    | cons r rest' =>
      rw [hr] at hv
      simpa using hv
  exact linkedFrom_append b rest nb hlf hnb (htd ▸ hl)

theorem linkedFrom_iff (p : Block) (bs : List Block) :
    linkedFrom p bs = true ↔ ∀ i, i < bs.length →
      ((bs.getD i default).isValid = true ∧
       (bs.getD i default).previous_hash_ =
         (if i = 0 then p else bs.getD (i - 1) default).hash_) := by
  induction bs generalizing p with
  | nil => simp [linkedFrom]
  | cons b bs ih =>
    simp only [linkedFrom, Bool.and_eq_true, beq_iff_eq]
    rw [ih b]
    constructor
    · rintro ⟨⟨hbv, hbp⟩, hrest⟩ i hi
      cases i with
      | zero => exact ⟨hbv, by simpa using hbp⟩
      | succ i' =>
        have hres := hrest i' (by simpa using hi)
        cases i' with
        | zero => simpa using hres
        | succ i'' => simpa using hres
    · intro hall
      refine ⟨⟨?_, ?_⟩, ?_⟩
      · exact (hall 0 (by simp)).1
      · simpa using (hall 0 (by simp)).2
      · intro i hi
        have hres := hall (i + 1) (by simpa using hi)
        cases i with
        | zero => simpa using hres
        | succ i' => simpa using hres

theorem getD_concat_length (l : List Block) (x : Block) (d : Block) :
    (l ++ [x]).getD l.length d = x := by
  induction l with
  | nil => rfl
  | cons a l ih =>
    rw [List.cons_append, List.length_cons, List.getD_cons_succ]
    exact ih

theorem getD_mem_tail (l : List Block) (i : Nat) (d : Block)
    (h1 : 1 ≤ i) (h2 : i < l.length) : l.getD i d ∈ l.tail := by
  cases l with
  | nil => simp at h2
  | cons a l =>
    obtain ⟨i', rfl⟩ : ∃ i', i = i' + 1 := ⟨i - 1, by omega⟩
    simp only [List.getD_cons_succ, List.tail_cons]
    have h2' : i' < l.length := by simpa using h2
    rw [List.getD_eq_getElem l d h2']
    exact List.getElem_mem h2'

/-- Every transaction of every non-genesis block of a reachable chain has
its uuid recorded in the used-transaction set. -/
theorem reached_tail_used {c : Chain} (h : Reached c) :
    ∀ b ∈ c.blocks_.tail, ∀ t ∈ b.transactions_,
      c.entity_manager_.isTransactionUsed t.uuid_ = true := by
  induction h with
  | init s t fn p now =>
    intro b hb
    exact absurd hb (by simp [Chain.init])
  | initUnsigned s t fn p now =>
    intro b hb
    exact absurd hb (by simp [Chain.initUnsigned])
  | stepFalse c nb c' hr hadd ih =>
    rw [addBlock_false_eq hadd]
    exact ih
  | stepTrue c nb c' hr hadd ih =>
    obtain ⟨tail, hL, hdup, hval, hbl, hem, _, _⟩ := addBlock_true_spec hadd
    intro b hb t ht
    rw [hem, isTransactionUsed_foldMark]
    rw [hbl] at hb
    obtain ⟨hd, tl, hsplit⟩ : ∃ hd tl, c.blocks_ = hd :: tl := by
      cases hbs : c.blocks_ with
      | nil => rw [hbs] at hL; exact Option.noConfusion hL
      | cons hd tl => exact ⟨hd, tl, rfl⟩
    rw [hsplit] at hb
    simp only [List.cons_append, List.tail_cons] at hb
    rcases List.mem_append.mp hb with hb' | hb'
    · exact Or.inr (ih b (by rw [hsplit]; exact hb') t ht)
    · have hbr : b = Chain.relinked tail nb := by simpa using hb'
      subst hbr
      rw [relinked_transactions] at ht
      exact Or.inl ⟨t, ht, rfl⟩

/-- Transactions of two distinct non-genesis blocks of a reachable chain
carry distinct uuids. -/
theorem reached_appended_distinct {c : Chain} (h : Reached c) :
    ∀ i j, 1 ≤ i → i < j → j < c.blocks_.length →
    ∀ t ∈ (c.blocks_.getD i default).transactions_,
    ∀ u ∈ (c.blocks_.getD j default).transactions_, t.uuid_ ≠ u.uuid_ := by
  induction h with
  | init s t fn p now =>
    intro i j h1 h2 h3
    exact absurd h3 (by simp [Chain.init]; omega)
  | initUnsigned s t fn p now =>
    intro i j h1 h2 h3
    exact absurd h3 (by simp [Chain.initUnsigned]; omega)
  | stepFalse c nb c' hr hadd ih =>
    rw [addBlock_false_eq hadd]
    exact ih
  | stepTrue c nb c' hr hadd ih =>
    obtain ⟨tail, hL, hdup, hval, hbl, hem, _, _⟩ := addBlock_true_spec hadd
    intro i j h1 h2 h3 t ht u hu
    rw [hbl] at h3 ht hu
    simp only [List.length_append, List.length_cons, List.length_nil] at h3
    have hi : i < c.blocks_.length := by omega
    rw [List.getD_append c.blocks_ [Chain.relinked tail nb] default i hi] at ht
    by_cases hj : j < c.blocks_.length
    · rw [List.getD_append c.blocks_ [Chain.relinked tail nb] default j hj] at hu
      exact ih i j h1 h2 hj t ht u hu
    · have hje : j = c.blocks_.length := by omega
      rw [hje, getD_concat_length] at hu
      rw [relinked_transactions] at hu
      have htused : c.entity_manager_.isTransactionUsed t.uuid_ = true :=
        reached_tail_used hr (c.blocks_.getD i default)
          (getD_mem_tail c.blocks_ i default h1 hi) t ht
      have huunused : c.entity_manager_.isTransactionUsed u.uuid_ = false := by
        have := List.any_eq_false.mp hdup u hu
        simpa using this
      intro he
      rw [he] at htused
      rw [htused] at huunused
      exact Bool.noConfusion huunused

theorem blocksValid_iff (bs : List Block) :
    blocksValid bs = true ↔
      (bs ≠ [] ∧
       (bs.length = 1 → (bs.getD 0 default).isValid = true) ∧
       (∀ i, 1 ≤ i → i < bs.length →
          (bs.getD i default).isValid = true ∧
          (bs.getD i default).previous_hash_ = (bs.getD (i - 1) default).hash_)) := by
  cases bs with
  | nil => simp [blocksValid]
  | cons b rest =>
    rw [blocksValid_cons]
    cases rest with
    | nil =>
      show b.isValid = true ↔ _
      constructor
      · intro h
        refine ⟨by simp, fun _ => h, ?_⟩
        intro i h1 h2
        rw [List.length_cons, List.length_nil] at h2
        omega
      · intro h
        exact h.2.1 (by simp)
    | cons r rest' =>
      show linkedFrom b (r :: rest') = true ↔ _
      rw [linkedFrom_iff]
      constructor
      · intro h
        refine ⟨by simp, ?_, ?_⟩
        · intro hlen
          rw [List.length_cons, List.length_cons] at hlen
          omega
        · intro i h1 h2
          obtain ⟨k, rfl⟩ : ∃ k, i = k + 1 := ⟨i - 1, by omega⟩
          have hk : k < (r :: rest').length := by
            simp only [List.length_cons] at h2 ⊢
            omega
          have hres := h k hk
          cases k with
          | zero => simpa using hres
          | succ k' => simpa using hres
      · intro h i hi
        have hi' : i + 1 < (b :: r :: rest').length := by
          simp only [List.length_cons] at hi ⊢
          omega
        have hres := h.2.2 (i + 1) (by omega) hi'
        cases i with
        | zero => simpa using hres
        | succ i' => simpa using hres

/-- C1: if `Chain::addBlock` on a non-empty chain returns false (duplicate
transaction or invalid relinked block), the chain's block sequence and the
whole `Authenticator` state are exactly what they were before the call. -/
theorem C1_addBlock_reject_unchanged (c : Chain) (nb : Block) (c' : Chain)
    (_hne : c.blocks_ ≠ []) (h : c.addBlock nb = some (c', false)) :
    c'.blocks_ = c.blocks_ ∧ c'.entity_manager_ = c.entity_manager_ := by
  rw [addBlock_false_eq h]
  exact ⟨rfl, rfl⟩

theorem C1_witness :
    cG.blocks_ ≠ [] ∧ cG.addBlock blkBad = some (cG, false) ∧
      (cG.blocks_ = cG.blocks_ ∧ cG.entity_manager_ = cG.entity_manager_) :=
  ⟨by decide, by decide,
    C1_addBlock_reject_unchanged cG blkBad cG (by decide) (by decide)⟩

/-- C2:`Authenticator::validateAndRecordAction` fails with no mutation on a
used transaction id, an unregistered issuer, or a missing non-empty required
capability; otherwise it marks the id used and succeeds, and repeating the
identical call then fails. -/
theorem C2_validateAndRecordAction_spec (a : Authenticator)
    (issuer action tx req : String) :
    (((a.isTransactionUsed tx = true) ∨ (a.isParticipantAuthorized issuer = false) ∨
        (req ≠ "" ∧ a.hasCapability issuer req = false)) →
      a.validateAndRecordAction issuer action tx req = (a, false)) ∧
    (a.isTransactionUsed tx = false → a.isParticipantAuthorized issuer = true →
      (req = "" ∨ a.hasCapability issuer req = true) →
      a.validateAndRecordAction issuer action tx req
          = (a.markTransactionUsed tx, true) ∧
        (a.markTransactionUsed tx).isTransactionUsed tx = true) ∧
    (∀ a' : Authenticator,
      a.validateAndRecordAction issuer action tx req = (a', true) →
      (a'.validateAndRecordAction issuer action tx req).2 = false) := by
  refine ⟨?_, ?_, ?_⟩
  · intro hyp
    unfold Authenticator.validateAndRecordAction
    by_cases hU : a.isTransactionUsed tx = true
    · rw [if_pos hU]
    · rw [if_neg hU]
      by_cases hAu : (!a.isParticipantAuthorized issuer) = true
      · rw [if_pos hAu]
      · rw [if_neg hAu]
        by_cases hCp : (req != "" && !a.hasCapability issuer req) = true
        · rw [if_pos hCp]
        · exfalso
          simp only [Bool.not_eq_true] at hAu hCp
          rcases hyp with hh | hh | hh
          · exact hU hh
          · have hAu2 : a.isParticipantAuthorized issuer = true := by
              simpa using hAu
            rw [hAu2] at hh
            exact Bool.noConfusion hh
          · simp only [Bool.and_eq_false_iff, bne_eq_false_iff_eq] at hCp
            rcases hCp with hc | hc
            · exact hh.1 hc
            · have hc' : a.hasCapability issuer req = true := by simpa using hc
              rw [hc'] at hh
              exact Bool.noConfusion hh.2
  · intro hU hAu hC
    unfold Authenticator.validateAndRecordAction
    have hU' : ¬ (a.isTransactionUsed tx = true) := by
      intro hx; rw [hU] at hx; exact Bool.noConfusion hx
    have hAu' : ¬ ((!a.isParticipantAuthorized issuer) = true) := by
      rw [hAu]; simp
    rw [if_neg hU', if_neg hAu']
    have hcond : (req != "" && !a.hasCapability issuer req) = false := by
      rcases hC with hc | hc
      · simp [hc]
      · simp [hc]
    rw [hcond]
    simp only [Bool.false_eq_true, if_false]
    constructor
    · trivial
    · exact (isTransactionUsed_mark_iff a tx tx).mpr (Or.inl rfl)
  · intro a' h
    unfold Authenticator.validateAndRecordAction at h
    by_cases hU : a.isTransactionUsed tx = true
    · rw [if_pos hU] at h
      exact absurd (congrArg Prod.snd h) (by simp)
    · rw [if_neg hU] at h
      by_cases hAu : (!a.isParticipantAuthorized issuer) = true
      · rw [if_pos hAu] at h
        exact absurd (congrArg Prod.snd h) (by simp)
      · rw [if_neg hAu] at h
        by_cases hCp : (req != "" && !a.hasCapability issuer req) = true
        · rw [if_pos hCp] at h
          exact absurd (congrArg Prod.snd h) (by simp)
        · rw [if_neg hCp] at h
          have ha' : a' = a.markTransactionUsed tx :=
            (congrArg Prod.fst h).symm
          subst ha'
          unfold Authenticator.validateAndRecordAction
          rw [if_pos ((isTransactionUsed_mark_iff a tx tx).mpr (Or.inl rfl))]

theorem C2_witness :
    aW.validateAndRecordAction "p1" "act" "tx-1" "WRITE"
        = (aW.markTransactionUsed "tx-1", true) ∧
      ((aW.markTransactionUsed "tx-1").validateAndRecordAction
          "p1" "act" "tx-1" "WRITE").2 = false :=
  ⟨((C2_validateAndRecordAction_spec aW "p1" "act" "tx-1" "WRITE").2.1
      (by decide) (by decide) (by decide)).1,
   (C2_validateAndRecordAction_spec aW "p1" "act" "tx-1" "WRITE").2.2
      (aW.markTransactionUsed "tx-1")
      ((C2_validateAndRecordAction_spec aW "p1" "act" "tx-1" "WRITE").2.1
        (by decide) (by decide) (by decide)).1⟩

/-- C3 (counterexample): appending a block whose transaction reuses the
genesis uuid "g" succeeds, producing a chain in which both block 0 and
block 1 hold a transaction with uuid "g" — the genesis uuid is never marked
used, so chain-wide uniqueness fails as stated. -/
theorem C3_counterexample :
    (Chain.addBlock cG blkG).map (fun r => (r.2, r.1.blocks_.length,
        (r.1.blocks_.getD 0 default).transactions_.map Transaction.uuid_,
        (r.1.blocks_.getD 1 default).transactions_.map Transaction.uuid_))
      = some (true, 2, ["g"], ["g"]) := by decide

/-- C3 (amended): within a reachable chain, transactions lying in two
distinct non-genesis blocks have pairwise distinct uuids; the genesis
transaction's uuid can be reused by a later block, and duplicates inside a
single candidate block are not rejected, so uniqueness holds only across
distinct appended blocks. -/
theorem C3_amended_appended_uuid_distinct {c : Chain} (h : Reached c)
    (i j : Nat) (h1 : 1 ≤ i) (h2 : i < j) (h3 : j < c.blocks_.length) :
    ∀ t ∈ (c.blocks_.getD i default).transactions_,
    ∀ u ∈ (c.blocks_.getD j default).transactions_, t.uuid_ ≠ u.uuid_ :=
  reached_appended_distinct h i j h1 h2 h3

theorem C3_witness :
    (txSigned "t1" "op1" 50).uuid_ ≠ (txSigned "t2" "op2" 60).uuid_ := by
  have hr : Reached c2 :=
    Reached.stepTrue c1 blk2 c2
      (Reached.stepTrue cG blk1 c1
        (Reached.init "C1" "g" "genesis" 100 ts0) (by decide))
      (by decide)
  exact C3_amended_appended_uuid_distinct hr 1 2 (by decide) (by decide)
    (by decide) (txSigned "t1" "op1" 50) (by decide)
    (txSigned "t2" "op2" 60) (by decide)

/-- C4 (counterexample): a non-empty record list whose single record is
well-formed but unsigned yields a freshly constructed block that fails
`isValid`, because `Block::isValid` requires every transaction to be valid. -/
theorem C4_counterexample :
    blkUnsigned.transactions_ ≠ ([] : List Transaction) ∧
      blkUnsigned.isValid = false := by decide

/-- C4 (amended): for every non-empty list of valid (in particular signed)
transactions, the freshly constructed block's Merkle root is the Merkle root
of the transactions' canonical strings in order, and `isValid` holds
immediately after construction. -/
theorem C4_amended_block_construction (txns : List Transaction) (now : Timestamp)
    (_hne : txns ≠ []) (hv : ∀ t ∈ txns, t.isValid = true) :
    (Block.ofTxns txns now).merkle_root =
      (MerkleTree.build (txns.map Transaction.toString)).getRoot ∧
    (Block.ofTxns txns now).isValid = true := by
  constructor
  · rfl
  · apply Block.isValid_of
    · exact le_refl 0
    · show ¬ ("GENESIS" : String) = ""
      decide
    · rfl
    · rfl
    · exact hv

theorem C4_witness :
    [txSigned "g" "genesis" 100] ≠ ([] : List Transaction) ∧
    ((Block.ofTxns [txSigned "g" "genesis" 100] ts0).merkle_root =
        (MerkleTree.build ([txSigned "g" "genesis" 100].map Transaction.toString)).getRoot ∧
      (Block.ofTxns [txSigned "g" "genesis" 100] ts0).isValid = true) :=
  ⟨by decide,
   C4_amended_block_construction [txSigned "g" "genesis" 100] ts0
     (by decide) (by decide)⟩

/-- C5 (counterexample): a two-block chain whose genesis block has a
tampered stored hash (so `blocks_[0].isValid()` is false) still passes
`Chain::isValid`, because for chains of length at least two the loop starts
at index 1 and never rechecks block 0's own validity. -/
theorem C5_counterexample :
    Chain.isValid cBad = true ∧ (cBad.blocks_.getD 0 default).isValid = false := by
  decide

/-- C5 (amended): `Chain::isValid` is true exactly when the chain is
non-empty, every block at index i ≥ 1 is itself valid and linked to its
predecessor's hash, and — only when the chain has exactly one block —
block 0 is itself valid; block 0's own validity is not checked for longer
chains.  The result reads only the stored blocks, never the
`Authenticator`. -/
theorem C5_amended_isValid_characterization (c : Chain) :
    (c.isValid = true ↔
      (c.blocks_ ≠ [] ∧
       (c.blocks_.length = 1 → (c.blocks_.getD 0 default).isValid = true) ∧
       (∀ i, 1 ≤ i → i < c.blocks_.length →
          (c.blocks_.getD i default).isValid = true ∧
          (c.blocks_.getD i default).previous_hash_ =
            (c.blocks_.getD (i - 1) default).hash_))) ∧
    (∀ em : Authenticator,
      Chain.isValid { c with entity_manager_ := em } = c.isValid) :=
  ⟨blocksValid_iff c.blocks_, fun _ => rfl⟩

theorem C5_witness :
    (c2.blocks_.getD 1 default).isValid = true ∧
    (c2.blocks_.getD 1 default).previous_hash_ =
      (c2.blocks_.getD 0 default).hash_ :=
  ((C5_amended_isValid_characterization c2).1.mp (by decide)).2.2 1
    (by decide) (by decide)

/-- C6: a successful `addBlock` on a valid chain appends exactly one block;
the new tail's index is the old tail's plus one, its previous hash is the
old tail's hash, its Merkle root and content hash are the recomputed ones,
every one of its transaction uuids is in the used-transaction set, and the
grown chain is still valid. -/
theorem C6_addBlock_success_postconditions {c : Chain} {nb : Block} {c' : Chain}
    (hv : c.isValid = true) (h : c.addBlock nb = some (c', true)) :
    c'.blocks_.length = c.blocks_.length + 1 ∧
    (∃ tail newTail, c.blocks_.getLast? = some tail ∧
      c'.blocks_.getLast? = some newTail ∧
      newTail.index_ = tail.index_ + 1 ∧
      newTail.previous_hash_ = tail.hash_ ∧
      newTail.merkle_root = buildMerkleRootOf newTail.transactions_ ∧
      newTail.hash_ = newTail.calculateHash ∧
      (∀ t ∈ newTail.transactions_,
        c'.entity_manager_.isTransactionUsed t.uuid_ = true)) ∧
    c'.isValid = true := by
  obtain ⟨tail, hL, hdup, hval, hbl, hem, _, _⟩ := addBlock_true_spec h
  refine ⟨?_, ⟨tail, Chain.relinked tail nb, hL, ?_, ?_, ?_, ?_, ?_, ?_⟩, ?_⟩
  · rw [hbl]; simp
  · rw [hbl]; exact List.getLast?_concat c.blocks_
  · exact relinked_index tail nb
  · exact relinked_prev tail nb
  · rw [relinked_transactions]; exact relinked_merkle tail nb
  · exact relinked_hash tail nb
  · intro t ht
    rw [hem, isTransactionUsed_foldMark]
    rw [relinked_transactions] at ht
    exact Or.inl ⟨t, ht, rfl⟩
  · unfold Chain.isValid
    rw [hbl]
    exact blocksValid_append c.blocks_ (Chain.relinked tail nb) hv hval hL
      (relinked_prev tail nb)

theorem C6_witness :
    c1.blocks_.length = cG.blocks_.length + 1 ∧ c1.isValid = true :=
  ⟨(@C6_addBlock_success_postconditions cG blk1 c1 (by decide) (by decide)).1,
   (@C6_addBlock_success_postconditions cG blk1 c1 (by decide) (by decide)).2.2⟩

/-- C7:`Transaction::isValid` is false exactly when the uuid is empty, the
payload's canonical string is empty, the signature is empty, or the priority
lies outside [0,255]; otherwise it is true, and its verdict never depends on
the content of a non-empty signature — no cryptographic verification takes
place. -/
theorem C7_transaction_isValid_spec (t : Transaction) :
    (t.isValid = false ↔
      (t.uuid_ = "" ∨ t.function_ = "" ∨ t.signature_ = [] ∨
        t.priority_ < 0 ∨ 255 < t.priority_)) ∧
    (∀ sig1 sig2 : List Nat, sig1 ≠ [] → sig2 ≠ [] →
      Transaction.isValid { t with signature_ := sig1 } =
        Transaction.isValid { t with signature_ := sig2 }) := by
  constructor
  · unfold Transaction.isValid
    by_cases hc : (t.uuid_ == "" || t.function_ == "" || t.signature_.isEmpty
        || decide (t.priority_ < 0) || decide (t.priority_ > 255)) = true
    · rw [if_pos hc]
      simp only [Bool.or_eq_true, beq_iff_eq, List.isEmpty_iff,
        decide_eq_true_eq] at hc
      constructor
      · intro _
        rcases hc with ((((h | h) | h) | h) | h)
        · exact Or.inl h
        · exact Or.inr (Or.inl h)
        · exact Or.inr (Or.inr (Or.inl h))
        · exact Or.inr (Or.inr (Or.inr (Or.inl h)))
        · exact Or.inr (Or.inr (Or.inr (Or.inr h)))
      · intro _; rfl
    · rw [if_neg hc]
      simp only [Bool.or_eq_true, beq_iff_eq, List.isEmpty_iff,
        decide_eq_true_eq, not_or] at hc
      obtain ⟨⟨⟨⟨h1, h2⟩, h3⟩, h4⟩, h5⟩ := hc
      constructor
      · intro hx; exact absurd hx (by simp)
      · intro hx
        rcases hx with h | h | h | h | h
        · exact absurd h h1
        · exact absurd h h2
        · exact absurd h h3
        · exact absurd h h4
        · exact absurd h h5
  · intro sig1 sig2 h1 h2
    have e1 : sig1.isEmpty = false := by
      cases sig1 with
      | nil => exact absurd rfl h1
      | cons a l => rfl
    have e2 : sig2.isEmpty = false := by
      cases sig2 with
      | nil => exact absurd rfl h2
      | cons a l => rfl
    show (if t.uuid_ == "" || t.function_ == "" || sig1.isEmpty
        || decide (t.priority_ < 0) || decide (t.priority_ > 255) then false
      else true) =
      (if t.uuid_ == "" || t.function_ == "" || sig2.isEmpty
        || decide (t.priority_ < 0) || decide (t.priority_ > 255) then false
      else true)
    rw [e1, e2]

theorem C7_witness :
    Transaction.isValid { txSigned "g" "genesis" 100 with signature_ := [1] } =
      Transaction.isValid { txSigned "g" "genesis" 100 with signature_ := [2] } :=
  (C7_transaction_isValid_spec (txSigned "g" "genesis" 100)).2 [1] [2]
    (by decide) (by decide)

/-- C8:`Block::verifyTransaction` returns true for every in-range
transaction index, false for every out-of-range index, and verifying the
freshly built inclusion proof against any string other than the stored
record's canonical string fails. -/
theorem C8_verifyTransaction_spec (b : Block) (i : Nat) :
    (i < b.transactions_.length → b.verifyTransaction i = true) ∧
    (b.transactions_.length ≤ i → b.verifyTransaction i = false) ∧
    (∀ leafValue : String, i < b.transactions_.length →
      leafValue ≠ (b.transactions_.map Transaction.toString).getD i "" →
      (MerkleTree.build (b.transactions_.map Transaction.toString)).verifyProof
        leafValue i
        ((MerkleTree.build (b.transactions_.map Transaction.toString)).getProof i)
        = false) :=
  ⟨fun h => verifyTransaction_in_range b i h,
   fun h => verifyTransaction_out_of_range b i h,
   fun s' h hne => verifyProof_tamper b i h s' hne⟩

theorem C8_witness :
    blkW.verifyTransaction 2 = true ∧ blkW.verifyTransaction 3 = false ∧
    (MerkleTree.build (blkW.transactions_.map Transaction.toString)).verifyProof
      "tampered" 0
      ((MerkleTree.build (blkW.transactions_.map Transaction.toString)).getProof 0)
      = false :=
  ⟨(C8_verifyTransaction_spec blkW 2).1 (by decide),
   (C8_verifyTransaction_spec blkW 3).2.1 (by decide),
   (C8_verifyTransaction_spec blkW 0).2.2 "tampered" (by decide) (by decide)⟩

/-- C9 (counterexample): on the empty chain produced by the default
constructor, `addBlock` does not fail explicitly — it performs the
unguarded `blocks_.back()` read (undefined behaviour, modelled `none`)
instead of returning an explicit failure with the state unchanged. -/
theorem C9_counterexample :
    Chain.empty.addBlock blk1 = none ∧
      Chain.empty.addBlock blk1 ≠ some (Chain.empty, false) := by decide

/-- C9 (amended): on a chain with zero blocks, `getLastBlock` raises the
explicit "Chain is empty" error and `isValid` returns false, but `addBlock`
performs an unguarded `blocks_.back()` read — undefined behaviour, modelled
as `none` — rather than failing explicitly. -/
theorem C9_amended_empty_chain (c : Chain) (h : c.blocks_ = []) :
    c.getLastBlock = Except.error "Chain is empty" ∧
    c.isValid = false ∧
    ∀ nb : Block, c.addBlock nb = none := by
  refine ⟨?_, ?_, ?_⟩
  · unfold Chain.getLastBlock
    rw [h]
    rfl
  · unfold Chain.isValid
    rw [h]
    rfl
  · intro nb
    exact (addBlock_none_iff c nb).mpr h

theorem C9_witness :
    Chain.empty.getLastBlock = Except.error "Chain is empty" ∧
    Chain.empty.isValid = false ∧
    Chain.empty.addBlock blk2 = none :=
  ⟨(C9_amended_empty_chain Chain.empty rfl).1,
   (C9_amended_empty_chain Chain.empty rfl).2.1,
   (C9_amended_empty_chain Chain.empty rfl).2.2 blk2⟩

/-- C10:for an unregistered participant id, `updateParticipantState`
returns false, and each of `updateParticipantState`, `grantCapability`,
`revokeCapability` and `setParticipantMetadata` leaves the whole
`Authenticator` state unchanged. -/
theorem C10_unregistered_no_effect (a : Authenticator) (id : String)
    (h : a.isParticipantAuthorized id = false) :
    (∀ st, a.updateParticipantState id st = (a, false)) ∧
    (∀ cap, a.grantCapability id cap = a) ∧
    (∀ cap, a.revokeCapability id cap = a) ∧
    (∀ k v, a.setParticipantMetadata id k v = a) := by
  refine ⟨?_, ?_, ?_, ?_⟩
  · intro st
    unfold Authenticator.updateParticipantState
    rw [if_pos (by simp [h])]
  · intro cap
    unfold Authenticator.grantCapability
    rw [if_neg (by simp [h])]
  · intro cap
    unfold Authenticator.revokeCapability
    rw [if_neg (by simp [h])]
  · intro k v
    unfold Authenticator.setParticipantMetadata
    rw [if_neg (by simp [h])]

theorem C10_witness :
    Authenticator.empty.updateParticipantState "p9" "active"
        = (Authenticator.empty, false) ∧
    Authenticator.empty.grantCapability "p9" "WRITE" = Authenticator.empty ∧
    Authenticator.empty.revokeCapability "p9" "WRITE" = Authenticator.empty ∧
    Authenticator.empty.setParticipantMetadata "p9" "k" "v"
        = Authenticator.empty :=
  ⟨(C10_unregistered_no_effect Authenticator.empty "p9" (by decide)).1 "active",
   (C10_unregistered_no_effect Authenticator.empty "p9" (by decide)).2.1 "WRITE",
   (C10_unregistered_no_effect Authenticator.empty "p9" (by decide)).2.2.1 "WRITE",
   (C10_unregistered_no_effect Authenticator.empty "p9" (by decide)).2.2.2 "k" "v"⟩

end chain
